import Mathlib

/-!
Verification of the document ingestion / OCR extraction pipeline
(`src/processors/document_processor.py` and `src/ui/streamlit_app.py`).

Python strings are modelled as `List Char` (sequences of codepoints); raw
file bytes as `List Nat` (each byte a value below 256); Python dicts whose
key sets vary across return paths are modelled as structures whose fields
are `Option`-valued, `none` meaning the key is absent.  An operation that
may raise a Python exception is modelled as `Except String` with the
`.error` constructor carrying `str(e)`; a `try/except` boundary is the
`match` that converts `.error` into an error-bearing result dict.
-/

/-- The keys of `DocumentProcessor.supported_formats` (constructor, lines 30-42). -/
def supported_formats : List String :=
  [".docx", ".pdf", ".xlsx", ".png", ".jpg", ".jpeg", ".txt", ".eml", ".json", ".xml", ".csv"]

/-- ASCII lowercasing of one character, as Python `str.lower` acts on the ASCII
extensions involved here. -/
def lowerChar (c : Char) : Char :=
  if 'A' ≤ c ∧ c ≤ 'Z' then Char.ofNat (c.toNat + 32) else c

/-- Python `s.lower()` (ASCII fragment). -/
def pyLower (s : String) : String :=
  String.mk (s.toList.map lowerChar)

/-- Final path component for POSIX paths: the part after the last slash
(`pathlib.PurePath.name`). -/
def lastName (l : List Char) : List Char :=
  (l.reverse.takeWhile (fun c => c ≠ '/')).reverse

/-- `pathlib.PurePath.suffix` on the final component `name`: with `i` the index
of the last dot, the suffix is `name[i:]` when `0 < i < len(name) - 1`, else the
empty string.  `tail` is the run of non-dot characters at the end, so when a dot
exists its index is `len(name) - len(tail) - 1`. -/
def pySuffixChars (name : List Char) : List Char :=
  let tail := name.reverse.takeWhile (fun c => c ≠ '.')
  if tail.length = name.length then []
  else if 0 < name.length - tail.length - 1 ∧ name.length - tail.length - 1 + 1 < name.length
  then name.drop (name.length - tail.length - 1)
  else []

/-- `pathlib.Path(p).suffix`. -/
def pySuffix (p : String) : String :=
  String.mk (pySuffixChars (lastName p.toList))

/-- `pathlib.Path(p).name`. -/
def lastComponent (p : String) : String :=
  String.mk (lastName p.toList)

/-- Result dict of `DocumentProcessor.process_file` at the dispatcher level.
`none` fields model absent dict keys. -/
structure ProcResult where
  content : Option String := none
  error : Option String := none
  file_path : Option String := none
  file_type : Option String := none
  file_name : Option String := none
deriving DecidableEq, Repr

/-- The `try` body of `DocumentProcessor.process_file` (lines 46-61): compute the
lowercase extension, raise `ValueError` when it is not registered, otherwise run
the registered extractor (`handlers ext`, which itself may raise, modelled by
`Except.error`) and augment its result dict with file path, type and name. -/
def process_file_try (handlers : String → Except String ProcResult) (filePath : String) :
    Except String ProcResult :=
  let ext := pyLower (pySuffix filePath)
  if ext ∈ supported_formats then
    match handlers ext with
    | Except.ok r =>
        Except.ok { r with
          file_path := some filePath
          file_type := some ext
          file_name := some (lastComponent filePath) }
    | Except.error e => Except.error e
  else
    Except.error ("Unsupported file format: " ++ ext)

/-- `DocumentProcessor.process_file` (lines 44-70): the `except` clause catches any
exception from the `try` body and returns a dict with empty `content`, the
exception message as `error`, plus file path and type. -/
def process_file (handlers : String → Except String ProcResult) (filePath : String) :
    ProcResult :=
  match process_file_try handlers filePath with
  | Except.ok r => r
  | Except.error e =>
      { content := some ("")
        error := some e
        file_path := some filePath
        file_type := some (pyLower (pySuffix filePath)) }

/-! ## OCR text cleaning (`_clean_ocr_text`, lines 223-247) -/

/-- One scan step of Python `str.replace(k, r)`: left-to-right, non-overlapping;
`fuel` bounds the recursion by the length of the scanned list (each step consumes
at least one element when `k` is non-empty). -/
def replaceFuel (k r : List Char) : Nat → List Char → List Char
  | 0, s => s
  | _ + 1, [] => []
  | fuel + 1, c :: t =>
    if k.isPrefixOf (c :: t) then r ++ replaceFuel k r fuel ((c :: t).drop k.length)
    else c :: replaceFuel k r fuel t

/-- Python `s.replace(k, r)`.  For an empty pattern Python interleaves `r` around
every character; for a non-empty pattern it is the left-to-right non-overlapping
scan `replaceFuel`. -/
def replaceAll (k r s : List Char) : List Char :=
  if k.isEmpty then r ++ (s.map (fun c => c :: r)).flatten
  else replaceFuel k r s.length s

/-- The `corrections` dict of `_clean_ocr_text` (lines 229-238), in insertion
order. -/
def corrections : List (List Char × List Char) :=
  [ (("gate").toList, ("date").toList)
  , (("Beneticiary").toList, ("Beneficiary").toList)
  , (("Bene:iciary").toList, ("Beneficiary").toList)
  , (("Bene ficiary").toList, ("Beneficiary").toList)
  , (("Arnount").toList, ("Amount").toList)
  , (("Am0unt").toList, ("Amount").toList)
  , (("Va|ue").toList, ("Value").toList)
  , (("V4lue").toList, ("Value").toList) ]

/-- The loop `for wrong, correct in corrections.items(): cleaned = cleaned.replace(...)`
(lines 240-242), generalized over the rule list. -/
def applyCorrections (rules : List (List Char × List Char)) (t : List Char) : List Char :=
  rules.foldl (fun acc p => replaceAll p.1 p.2 acc) t

/-- Python `str.isspace` characters relevant to `str.split()` (ASCII whitespace). -/
def pyIsSpace (c : Char) : Bool :=
  c = ' ' || c = '\t' || c = '\n' || c = '\r' || c = '\x0b' || c = '\x0c'

/-- Accumulator-based splitter: `splitAux s acc` with `acc` the current token,
reversed.  `pySplitWs s = splitAux s []` is Python `s.split()` (split on runs of
whitespace, no empty tokens). -/
def splitAux : List Char → List Char → List (List Char)
  | [], acc => if acc.isEmpty then [] else [acc.reverse]
  | c :: t, acc =>
    if pyIsSpace c then
      if acc.isEmpty then splitAux t [] else acc.reverse :: splitAux t []
    else splitAux t (c :: acc)

/-- Python `s.split()`. -/
def pySplitWs (s : List Char) : List (List Char) :=
  splitAux s []

/-- Python `' '.join(s.split())` (line 245): collapse whitespace runs to single
spaces and trim. -/
def collapseWs (s : List Char) : List Char :=
  List.intercalate [' '] (pySplitWs s)

/-- `DocumentProcessor._clean_ocr_text` (lines 223-247): empty input short-circuits
to the empty string; otherwise apply the corrections dict in order, then collapse
whitespace. -/
def clean_ocr_text (t : List Char) : List Char :=
  if t.isEmpty then [] else collapseWs (applyCorrections corrections t)

/-! ## OCR multi-configuration selection (`_process_image`, lines 166-221) -/

/-- The five OCR configuration strings (lines 175-181), in order. -/
def ocr_configs : List String :=
  ["--oem 3 --psm 6", "--oem 3 --psm 8", "--oem 3 --psm 7", "--oem 3 --psm 11", "--oem 3 --psm 13"]

/-- Outcome of one configuration's iteration that did not raise: the
`ocr_data['conf']` token-confidence list and the (already stripped) text from
`image_to_string`. -/
structure OCROutcome where
  conf : List Int
  text : List Char
deriving DecidableEq, Repr

/-- Lines 194-195: keep the confidences strictly above zero, average them;
an empty positive list gives average 0. -/
def avgConfidence (confs : List Int) : ℚ :=
  let pos := confs.filter (fun c => 0 < c)
  if pos.isEmpty then 0 else (pos.sum : ℚ) / (pos.length : ℚ)

/-- One iteration of the loop at lines 186-207 over the running best
`(best_confidence, best_text)`; `none` models a configuration whose body raised
(the inner `except` continues). -/
def selectStep (best : ℚ × List Char) (o : Option OCROutcome) : ℚ × List Char :=
  match o with
  | none => best
  | some a =>
    if best.1 < avgConfidence a.conf ∧ best.2.length < a.text.length then
      (avgConfidence a.conf, a.text)
    else best

/-- The whole selection loop, seeded with `best_text = ""`, `best_confidence = 0`
(lines 183-184). -/
def selectBest (outcomes : List (Option OCROutcome)) : ℚ × List Char :=
  outcomes.foldl selectStep (0, [])

/-- Result dict of `_process_image`. -/
structure ImgResult where
  content : Option (List Char) := none
  image_size : Option (Nat × Nat) := none
  ocr_confidence : Option ℚ := none
  ocr_method : Option String := none
  error : Option String := none
deriving DecidableEq

/-- `DocumentProcessor._process_image` (lines 166-221).  `img` is `some (h, w)`
when `cv2.imread` returned an image of that shape and `none` when it returned
`None` (the raised `ValueError("Could not load image")` is caught by the outer
`except`, yielding empty content and the message as `error`).  `outcomes` are the
per-configuration loop outcomes.  On the success path the best text is cleaned
and returned with the best confidence; no `error` key is ever set there. -/
def process_image (img : Option (Nat × Nat)) (outcomes : List (Option OCROutcome)) :
    ImgResult :=
  match img with
  | none => { content := some [], error := some ("Could not load image") }
  | some sz =>
      { content := some (clean_ocr_text (selectBest outcomes).2)
        image_size := some sz
        ocr_confidence := some (selectBest outcomes).1
        ocr_method := some ("multi-config") }

/-! ## Plain-text extraction (`_process_txt`, lines 249-273) -/

/-- Whether a byte is a UTF-8 continuation byte (`0x80..0xBF`). -/
def utf8Cont (b : Nat) : Bool :=
  128 ≤ b && b < 192

/-- Strict UTF-8 decoding of a byte list into codepoints, as Python's `utf-8`
codec in strict mode: rejects lone/invalid leads, bad continuations, overlong
forms, surrogates and codepoints above `0x10FFFF`. -/
def utf8Decode : List Nat → Option (List Nat)
  | [] => some []
  | b :: rest =>
    if b < 128 then (utf8Decode rest).map (fun cs => b :: cs)
    else if b < 194 then none
    else if b < 224 then
      match rest with
      | b1 :: rest1 =>
        if utf8Cont b1 then (utf8Decode rest1).map (fun cs => ((b - 192) * 64 + (b1 - 128)) :: cs)
        else none
      | [] => none
    else if b < 240 then
      match rest with
      | b1 :: b2 :: rest2 =>
        if (if b = 224 then 160 ≤ b1 else if b = 237 then b1 < 160 else true)
            && utf8Cont b1 && utf8Cont b2 then
          (utf8Decode rest2).map
            (fun cs => ((b - 224) * 4096 + (b1 - 128) * 64 + (b2 - 128)) :: cs)
        else none
      | _ => none
    else if b < 245 then
      match rest with
      | b1 :: b2 :: b3 :: rest3 =>
        if (if b = 240 then 144 ≤ b1 else if b = 244 then b1 < 144 else true)
            && utf8Cont b1 && utf8Cont b2 && utf8Cont b3 then
          (utf8Decode rest3).map
            (fun cs => ((b - 240) * 262144 + (b1 - 128) * 4096 + (b2 - 128) * 64 + (b3 - 128)) :: cs)
        else none
      | _ => none
    else none

/-- The 32 codepoints of Windows-1252 for bytes `0x80..0x9F`; `none` marks the
five undefined bytes (`0x81, 0x8D, 0x8F, 0x90, 0x9D`) on which Python's strict
`cp1252` decoding raises. -/
def cp1252High (b : Nat) : Option Nat :=
  match b with
  | 128 => some 8364 | 129 => none      | 130 => some 8218 | 131 => some 402
  | 132 => some 8222 | 133 => some 8230 | 134 => some 8224 | 135 => some 8225
  | 136 => some 710  | 137 => some 8240 | 138 => some 352  | 139 => some 8249
  | 140 => some 338  | 141 => none      | 142 => some 381  | 143 => none
  | 144 => none      | 145 => some 8216 | 146 => some 8217 | 147 => some 8220
  | 148 => some 8221 | 149 => some 8226 | 150 => some 8211 | 151 => some 8212
  | 152 => some 732  | 153 => some 8482 | 154 => some 353  | 155 => some 8250
  | 156 => some 339  | 157 => none      | 158 => some 382  | 159 => some 376
  | _ => none

/-- One byte of `cp1252` decoding. -/
def cp1252Byte (b : Nat) : Option Nat :=
  if b < 128 then some b
  else if b < 160 then cp1252High b
  else some b

/-- Python `bytes.decode(enc)` for the encodings `_process_txt` uses.  `latin-1`
and `iso-8859-1` map every byte `b` to codepoint `b` and therefore never fail. -/
def pyDecode (enc : String) (bs : List Nat) : Option (List Nat) :=
  if enc = "utf-8" then utf8Decode bs
  else if enc = "latin-1" then some bs
  else if enc = "cp1252" then bs.mapM cp1252Byte
  else if enc = "iso-8859-1" then some bs
  else none

/-- Universal-newline translation performed by text-mode `open`: `\r\n` and lone
`\r` become `\n`. -/
def univNewlines : List Nat → List Nat
  | [] => []
  | 13 :: 10 :: rest => 10 :: univNewlines rest
  | 13 :: rest => 10 :: univNewlines rest
  | c :: rest => c :: univNewlines rest

/-- `open(file_path, 'r', encoding=enc).read()`: decode, then translate newlines;
raises `UnicodeDecodeError` (here `none`) exactly when the codec fails. -/
def readText (enc : String) (bs : List Nat) : Option (List Nat) :=
  (pyDecode enc bs).map univNewlines

/-- `len(content.split('\n'))`. -/
def lineCount (cps : List Nat) : Nat :=
  cps.count 10 + 1

/-- Result dict of `_process_txt`. -/
structure TxtResult where
  content : Option (List Nat) := none
  encoding_used : Option String := none
  line_count : Option Nat := none
  error : Option String := none
deriving DecidableEq, Repr

/-- The fallback encodings at line 261, in order. -/
def fallback_encodings : List String :=
  ["latin-1", "cp1252", "iso-8859-1"]

/-- The fallback loop of `_process_txt` (lines 261-273): the first encoding that
decodes wins and its name is recorded as `encoding_used`; if all fail the loop
falls through to `{'content': '', 'error': 'Could not decode file'}`. -/
def tryEncodings (encs : List String) (bs : List Nat) : TxtResult :=
  match encs with
  | [] => { content := some [], error := some ("Could not decode file") }
  | e :: rest =>
    match readText e bs with
    | some cps =>
        { content := some cps, encoding_used := some e, line_count := some (lineCount cps) }
    | none => tryEncodings rest bs

/-- `DocumentProcessor._process_txt` (lines 249-273): try UTF-8 first (no
`encoding_used` key on that path), fall back to the codepage list on
`UnicodeDecodeError`. -/
def process_txt (bs : List Nat) : TxtResult :=
  match readText ("utf-8") bs with
  | some cps => { content := some cps, line_count := some (lineCount cps) }
  | none => tryEncodings fallback_encodings bs

/-! ## Corpus aggregation (`combine_extracted_content`, streamlit_app.py 262-279) -/

/-- An element of the `content_list` handed to `combine_extracted_content`:
one per-file extraction result dict, restricted to the keys the function reads. -/
structure Entry where
  content : Option (List Char) := none
  tables : Option (List (List Char)) := none
  image_text : Option (List (List Char)) := none
  file_name : Option (List Char) := none
deriving DecidableEq

/-- Python truthiness of `d.get(key)` for a string-valued key: present and
non-empty. -/
def truthyStr : Option (List Char) → Bool
  | some s => !s.isEmpty
  | none => false

/-- Python truthiness of `d.get(key)` for a list-valued key: present and
non-empty. -/
def truthyList : Option (List (List Char)) → Bool
  | some l => !l.isEmpty
  | none => false

/-- The provenance-header marker `"\n--- Content from "`. -/
def headerMarker : List Char :=
  ("\n--- Content from ").toList

/-- The `"\nTables:\n"` label. -/
def tablesMarker : List Char :=
  ("\nTables:\n").toList

/-- The `"\nImage Text:\n"` label. -/
def imageMarker : List Char :=
  ("\nImage Text:\n").toList

/-- The block `file_info + content['content']` appended for an entry with truthy
content (lines 267-269): header naming `content.get('file_name', 'Unknown')`,
followed by the content. -/
def headerBlock (c : Entry) : List Char :=
  headerMarker ++ c.file_name.getD (("Unknown").toList) ++ (" ---\n").toList ++ c.content.getD []

/-- The (zero to three) strings one entry appends to `combined_text`
(lines 266-277): header+content when `content` is truthy, a Tables block when
`tables` is truthy, an Image Text block when `image_text` is truthy — the last
two regardless of whether `content` is empty. -/
def entryBlocks (c : Entry) : List (List Char) :=
  (if truthyStr c.content then [headerBlock c] else []) ++
  (if truthyList c.tables then [tablesMarker ++ List.intercalate ['\n'] (c.tables.getD [])] else []) ++
  (if truthyList c.image_text then [imageMarker ++ List.intercalate ['\n'] (c.image_text.getD [])] else [])

/-- `combine_extracted_content` (lines 262-279): all entries' blocks, in input
order, joined by blank lines (`'\n\n'.flatten`). -/
def combine_extracted_content (l : List Entry) : List Char :=
  List.intercalate ['\n', '\n'] ((l.map entryBlocks).flatten)

/-- Whether a block begins with the provenance-header marker. -/
def isHeaderBlock (s : List Char) : Bool :=
  headerMarker.isPrefixOf s

/-! ## Image preprocessing resize (`_preprocess_image`, lines 366-393)

The resize step at lines 373-377 runs in Python floats (IEEE-754 binary64):
`scale_factor = max(300/height, 300/width)` performs two correctly rounded
double divisions, `height * scale_factor` a correctly rounded double
multiplication (the integer operand is converted exactly for dimensions below
`2^53`), and `int(...)` truncates toward zero.  Doubles are dyadic rationals
with a 53-bit significand, so the computation is modelled exactly: a `Dyadic`
value `m * 2^e`, with each operation rounding its exact rational result to 53
significant bits, ties to even.  The model has an unbounded exponent range, so
it coincides with binary64 away from overflow and subnormals — amply covering
every real image dimension (the resize theorem assumes dimensions at most
`2^40`). -/

/-- Round `a / b` (with `b > 0`) to the nearest integer, ties to even. -/
def roundHalfEvenDiv (a b : ℕ) : ℕ :=
  let q := a / b
  let r := a % b
  if b < 2 * r then q + 1
  else if 2 * r < b then q
  else if q % 2 = 0 then q else q + 1

/-- Number of binary digits, by fuel-bounded halving (any fuel at least the
actual bit count gives the same answer; `bitlen` passes `n` itself). -/
def bitlenFuel : ℕ → ℕ → ℕ
  | 0, _ => 0
  | fuel + 1, n => if n = 0 then 0 else bitlenFuel fuel (n / 2) + 1

/-- Number of binary digits of `n` (0 for 0). -/
def bitlen (n : ℕ) : ℕ :=
  bitlenFuel n n

/-- A non-negative dyadic rational `m * 2^e`: the exact value of a (finite,
non-negative) IEEE-754 double. -/
structure Dyadic where
  m : ℕ
  e : ℤ
deriving DecidableEq, Repr

/-- The rational value of a dyadic. -/
def dval (x : Dyadic) : ℚ :=
  (x.m : ℚ) * (2 : ℚ) ^ x.e

/-- Round `p * 2^e` to a 53-bit significand, ties to even: exact when `p`
already fits, otherwise divide by the excess power of two with half-even
rounding. -/
def round53 (p : ℕ) (e : ℤ) : Dyadic :=
  if bitlen p ≤ 53 then ⟨p, e⟩
  else ⟨roundHalfEvenDiv p (2 ^ (bitlen p - 53)), e + ((bitlen p - 53 : ℕ) : ℤ)⟩

/-- Numerator and denominator of `(a / b) * 2^s` as a fraction of naturals. -/
def scaledFrac (a b : ℕ) (s : ℤ) : ℕ × ℕ :=
  if 0 ≤ s then (a * 2 ^ s.toNat, b) else (a, b * 2 ^ (-s).toNat)

/-- Correctly rounded double division `a / b` for positive naturals: scale the
quotient by `2^s` into the significand range `[2^52, 2^53)`, round half-even,
and record the exponent `-s`.  `fdivShift` picks the scaling. -/
def fdivShift (a b : ℕ) : ℤ :=
  let s0 : ℤ := 52 + (bitlen b : ℤ) - (bitlen a : ℤ)
  if 2 ^ 52 * (scaledFrac a b s0).2 ≤ (scaledFrac a b s0).1 then s0 else s0 + 1

/-- Correctly rounded double division `a / b` for positive naturals (body). -/
def fdivD (a b : ℕ) : Dyadic :=
  ⟨roundHalfEvenDiv (scaledFrac a b (fdivShift a b)).1 (scaledFrac a b (fdivShift a b)).2,
   -(fdivShift a b)⟩

/-- Correctly rounded double multiplication of an exactly converted natural by
a dyadic: the exact product `(n * x.m) * 2^(x.e)` re-rounded to 53 bits. -/
def fmulD (n : ℕ) (x : Dyadic) : Dyadic :=
  round53 (n * x.m) x.e

/-- Value comparison of dyadics (`x ≤ y`), by cross-shifting significands. -/
def dleD (x y : Dyadic) : Bool :=
  if x.e ≤ y.e then x.m ≤ y.m * 2 ^ (y.e - x.e).toNat
  else x.m * 2 ^ (x.e - y.e).toNat ≤ y.m

/-- Python `max` on two doubles (value order; equal values have equal
downstream behaviour). -/
def fmaxD (x y : Dyadic) : Dyadic :=
  if dleD x y then y else x

/-- Python `int(...)` on a non-negative double: truncation toward zero. -/
def ftrunc (x : Dyadic) : ℕ :=
  if 0 ≤ x.e then x.m * 2 ^ x.e.toNat else x.m / 2 ^ (-x.e).toNat

/-- The resize step at lines 372-377 over the exact double model: when either
dimension is below 300, both dimensions are multiplied by the single double
`scale_factor = max(300/height, 300/width)` and truncated by `int(...)`;
otherwise the shape is unchanged.  (Python raises `ZeroDivisionError` for a
zero dimension; the theorems assume positive dimensions.) -/
def resizeDims (height width : Nat) : Nat × Nat :=
  if height < 300 ∨ width < 300 then
    (ftrunc (fmulD height (fmaxD (fdivD 300 height) (fdivD 300 width))),
     ftrunc (fmulD width (fmaxD (fdivD 300 height) (fdivD 300 width))))
  else (height, width)

/-! ## Independence of substring-replacement rules -/

/-- `indepB a b` checks that no non-empty suffix of `a` is a prefix of `b` and
that `b` is a prefix of no non-empty suffix of `a` — so an occurrence of `b` can
neither sit inside `a` nor straddle a boundary where `a` ends. -/
def indepB (a b : List Char) : Bool :=
  a.tails.all (fun q => q.isEmpty || (!(b.isPrefixOf q) && !(q.isPrefixOf b)))

/-- Propositional form of `indepB`. -/
def Indep (a b : List Char) : Prop :=
  ∀ q : List Char, q ≠ [] → q <:+ a → ¬ b <+: q ∧ ¬ q <+: b

/-! ## Theorems -/

/-- C1: for every file whose lowercase extension is registered, `process_file`
returns (never raises — the `except` clause converts any extractor exception into
an error-bearing dict) and the result's `content` key is present, given that
every registered extractor's successful dict carries a `content` key (each
extractor in the source returns `content` on every path). -/
theorem process_file_registered_content_defined
    (handlers : String → Except String ProcResult) (p : String)
    (hreg : pyLower (pySuffix p) ∈ supported_formats)
    (hok : ∀ ext r, handlers ext = Except.ok r → r.content.isSome) :
    (process_file handlers p).content.isSome := by
  unfold process_file process_file_try
  cases hh : handlers (pyLower (pySuffix p)) with
  | ok r =>
    simp only [if_pos hreg, hh]
    exact hok _ _ hh
  | error e =>
    simp only [if_pos hreg, hh]
    rfl

/-- Witness for C1: a `.pdf` file with an extractor that always throws. -/
theorem process_file_registered_content_defined_witness :
    (pyLower (pySuffix ("a.pdf")) ∈ supported_formats) ∧
      (process_file (fun _ => Except.error ("boom")) ("a.pdf")).content.isSome :=
  ⟨by decide,
   process_file_registered_content_defined _ _ (by decide) (fun _ _ h => by cases h)⟩

/-- C5: a file whose lowercase extension has no registered extractor yields the
caught `ValueError` message as `error` with empty `content`; no exception
escapes (the function is total into `ProcResult`). -/
theorem process_file_unsupported (handlers : String → Except String ProcResult)
    (p : String) (h : pyLower (pySuffix p) ∉ supported_formats) :
    process_file handlers p =
      { content := some ("")
        error := some ("Unsupported file format: " ++ pyLower (pySuffix p))
        file_path := some p
        file_type := some (pyLower (pySuffix p)) } := by
  unfold process_file process_file_try
  simp only [if_neg h]

/-- Witness for C5: a `.bin` file. -/
theorem process_file_unsupported_witness :
    (pyLower (pySuffix ("data.bin")) ∉ supported_formats) ∧
      process_file (fun _ => Except.error ("x")) ("data.bin") =
        { content := some ("")
          error := some ("Unsupported file format: .bin")
          file_path := some ("data.bin")
          file_type := some (".bin") } := by
  refine ⟨by decide, ?_⟩
  have h := process_file_unsupported (fun _ => Except.error ("x")) ("data.bin") (by decide)
  simpa using h

/-- C4 counterexample: an image that loads but whose five OCR attempts all fail
(or, equally, all yield no text) produces empty content with NO `error` key, so
"`error` is set iff extraction could not produce meaningful content" is false. -/
theorem process_image_empty_ocr_no_error :
    (process_image (some (50, 50)) [none, none, none, none, none]).content = some [] ∧
      (process_image (some (50, 50)) [none, none, none, none, none]).error = none := by
  exact ⟨rfl, rfl⟩

/-- C4 amended: `content` is always a present key — on the dispatcher's error
path (where it is the empty string alongside the exception message), on every
image-extractor path, and on OCR attempts yielding no text; moreover whenever
the image extractor sets `error`, its content is empty.  The converse fails
(see the counterexample). -/
theorem content_defined_and_error_empty :
    (∀ (handlers : String → Except String ProcResult) (p : String) (e : String),
        process_file_try handlers p = Except.error e →
        process_file handlers p =
          { content := some ("")
            error := some e
            file_path := some p
            file_type := some (pyLower (pySuffix p)) }) ∧
    (∀ (img : Option (Nat × Nat)) (outcomes : List (Option OCROutcome)),
        (process_image img outcomes).content.isSome) ∧
    (∀ (img : Option (Nat × Nat)) (outcomes : List (Option OCROutcome)),
        (process_image img outcomes).error.isSome →
        (process_image img outcomes).content = some []) := by
  refine ⟨?_, ?_, ?_⟩
  · intro handlers p e h
    unfold process_file
    rw [h]
  · intro img outcomes
    cases img <;> rfl
  · intro img outcomes h
    cases img with
    | none => rfl
    | some sz => simp [process_image] at h

/-- Witness for C4's amended theorem: a throwing extractor on a `.pdf` path. -/
theorem content_defined_and_error_empty_witness :
    process_file (fun _ => Except.error ("boom")) ("a.pdf") =
      { content := some ("")
        error := some ("boom")
        file_path := some ("a.pdf")
        file_type := some (".pdf") } := by
  have h := content_defined_and_error_empty.1 (fun _ => Except.error ("boom")) ("a.pdf")
    ("boom") rfl
  simpa using h

/-- C2 counterexample: with only the first configuration succeeding — with text
`"ab"` but no positive-confidence token — the loop does NOT keep the first
configuration's attempt as the best: the initial best is the empty text with
confidence 0, and the first configuration is subject to the same conjunctive
test as every later one. -/
theorem first_config_does_not_seed :
    selectBest [some { conf := [], text := ("ab").toList }, none, none, none, none]
      ≠ (avgConfidence [], ("ab").toList) := by
  decide

/-- C2 amended: five fixed configurations are tried in order; the best is seeded
as `("", 0)` (not by the first configuration, which is tested like any other);
an iteration that raised is skipped; and a candidate replaces the current best
iff its average confidence is strictly greater AND its text strictly longer. -/
theorem select_best_conjunctive_rule :
    ocr_configs =
      ["--oem 3 --psm 6", "--oem 3 --psm 8", "--oem 3 --psm 7", "--oem 3 --psm 11",
        "--oem 3 --psm 13"] ∧
    (∀ outcomes, selectBest outcomes = outcomes.foldl selectStep ((0 : ℚ), ([] : List Char))) ∧
    (∀ best : ℚ × List Char, selectStep best none = best) ∧
    (∀ (best : ℚ × List Char) (a : OCROutcome),
        selectStep best (some a) ≠ best ↔
          best.1 < avgConfidence a.conf ∧ best.2.length < a.text.length) ∧
    (∀ (best : ℚ × List Char) (a : OCROutcome),
        best.1 < avgConfidence a.conf → best.2.length < a.text.length →
        selectStep best (some a) = (avgConfidence a.conf, a.text)) := by
  refine ⟨rfl, fun _ => rfl, fun _ => rfl, ?_, ?_⟩
  · intro best a
    constructor
    · intro hne
      by_contra hc
      exact hne (by simp only [selectStep, if_neg hc])
    · intro hc heq
      have h1 : selectStep best (some a) = (avgConfidence a.conf, a.text) := by
        simp only [selectStep, if_pos hc]
      rw [h1] at heq
      have h2 : a.text = best.2 := congrArg Prod.snd heq
      rw [h2] at hc
      exact absurd hc.2 (lt_irrefl _)
  · intro best a h1 h2
    simp only [selectStep, if_pos (And.intro h1 h2)]

/-- Witness for C2's amended theorem: a strictly better candidate replaces the
seed. -/
theorem select_best_conjunctive_rule_witness :
    selectStep ((0 : ℚ), ([] : List Char)) (some { conf := [80], text := ("hi").toList })
      = (avgConfidence [80], ("hi").toList) :=
  select_best_conjunctive_rule.2.2.2.2 _ _ (by norm_num [avgConfidence]) (by decide)

/-- C6: `_process_txt` tries UTF-8 first (no `encoding_used` key on that path);
on `UnicodeDecodeError` it walks `["latin-1", "cp1252", "iso-8859-1"]` in order,
the first successful decode wins with its codepage name recorded as
`encoding_used` — since `latin-1` decodes every byte sequence, the fallback
always succeeds at the first entry — and an (unreachable) exhausted loop yields
empty content and the `'Could not decode file'` error. -/
theorem process_txt_encoding_fallback (bs : List Nat) :
    (∀ cps, readText ("utf-8") bs = some cps →
        process_txt bs = { content := some cps, line_count := some (lineCount cps) }) ∧
    (readText ("utf-8") bs = none →
        process_txt bs =
          { content := some (univNewlines bs)
            encoding_used := some ("latin-1")
            line_count := some (lineCount (univNewlines bs)) }) ∧
    (∀ e rest cps, readText e bs = some cps →
        tryEncodings (e :: rest) bs =
          { content := some cps, encoding_used := some e, line_count := some (lineCount cps) }) ∧
    (∀ e rest, readText e bs = none → tryEncodings (e :: rest) bs = tryEncodings rest bs) ∧
    (∀ encs, (∀ e ∈ encs, readText e bs = none) →
        tryEncodings encs bs = { content := some [], error := some ("Could not decode file") }) ∧
    fallback_encodings = ["latin-1", "cp1252", "iso-8859-1"] := by
  refine ⟨?_, ?_, ?_, ?_, ?_, rfl⟩
  · intro cps h
    unfold process_txt
    rw [h]
  · intro h
    unfold process_txt
    rw [h]
    rfl
  · intro e rest cps h
    unfold tryEncodings
    rw [h]
  · intro e rest h
    have hu : tryEncodings (e :: rest) bs =
        match readText e bs with
        | some cps =>
            { content := some cps, encoding_used := some e, line_count := some (lineCount cps) }
        | none => tryEncodings rest bs := rfl
    rw [hu, h]
  · intro encs h
    induction encs with
    | nil => rfl
    | cons e rest ih =>
      unfold tryEncodings
      rw [h e (List.mem_cons_self e rest)]
      exact ih (fun x hx => h x (List.mem_cons_of_mem e hx))

/-- Witness for C6: the latin-1 bytes of `"café"` are not valid UTF-8 and are
recovered via the first fallback codepage, recorded as `"latin-1"`. -/
theorem process_txt_encoding_fallback_witness :
    readText ("utf-8") [99, 97, 102, 233] = none ∧
      process_txt [99, 97, 102, 233] =
        { content := some [99, 97, 102, 233]
          encoding_used := some ("latin-1")
          line_count := some 1 } :=
  ⟨by decide, ((process_txt_encoding_fallback [99, 97, 102, 233]).2.1 (by decide)).trans
    (by decide)⟩

/-- C9: the latin-1 fallback decodes every byte sequence (it maps byte `b` to
codepoint `b`), so `_process_txt` never reaches the final
`'Could not decode file'` branch: it never returns an error and always carries
a content key, for every input byte sequence. -/
theorem process_txt_never_encoding_error (bs : List Nat) :
    (process_txt bs).error = none ∧ (process_txt bs).content.isSome ∧
      process_txt bs ≠ { content := some [], error := some ("Could not decode file") } := by
  unfold process_txt
  cases h : readText ("utf-8") bs with
  | some cps =>
    refine ⟨rfl, rfl, ?_⟩
    intro heq
    exact Option.noConfusion (congrArg TxtResult.error heq)
  | none =>
    have hfb : tryEncodings fallback_encodings bs =
        { content := some (univNewlines bs)
          encoding_used := some ("latin-1")
          line_count := some (lineCount (univNewlines bs)) } := rfl
    rw [hfb]
    refine ⟨rfl, rfl, ?_⟩
    intro heq
    exact Option.noConfusion (congrArg TxtResult.error heq)

/-- A header+content block always begins with the provenance-header marker. -/
theorem isHeaderBlock_headerBlock (c : Entry) : isHeaderBlock (headerBlock c) = true := by
  simp only [isHeaderBlock, headerBlock, List.append_assoc]
  simp only [ List.isPrefixOf_iff_prefix]
  exact List.prefix_append _ _

/-- A Tables block never begins with the provenance-header marker. -/
theorem tables_block_not_header (x : List Char) :
    isHeaderBlock (tablesMarker ++ x) = false := by
  have h : ¬ headerMarker <+: (tablesMarker ++ x) := by
    intro hp
    have h1 : tablesMarker = '\n' :: 'T' :: ("ables:\n").toList := by decide
    have h2 : headerMarker = '\n' :: '-' :: ("-- Content from ").toList := by decide
    rw [h1, h2, List.cons_append, List.cons_append] at hp
    rcases List.cons_prefix_cons.mp hp with ⟨-, hp2⟩
    rcases List.cons_prefix_cons.mp hp2 with ⟨hc, -⟩
    exact absurd hc (by decide)
  simp only [isHeaderBlock]
  exact Bool.eq_false_iff.mpr (fun hTrue => h ( List.isPrefixOf_iff_prefix.mp hTrue))

/-- An Image Text block never begins with the provenance-header marker. -/
theorem image_block_not_header (x : List Char) :
    isHeaderBlock (imageMarker ++ x) = false := by
  have h : ¬ headerMarker <+: (imageMarker ++ x) := by
    intro hp
    have h1 : imageMarker = '\n' :: 'I' :: ("mage Text:\n").toList := by decide
    have h2 : headerMarker = '\n' :: '-' :: ("-- Content from ").toList := by decide
    rw [h1, h2, List.cons_append, List.cons_append] at hp
    rcases List.cons_prefix_cons.mp hp with ⟨-, hp2⟩
    rcases List.cons_prefix_cons.mp hp2 with ⟨hc, -⟩
    exact absurd hc (by decide)
  simp only [isHeaderBlock]
  exact Bool.eq_false_iff.mpr (fun hTrue => h ( List.isPrefixOf_iff_prefix.mp hTrue))

/-- The header-carrying blocks of one entry: exactly one when `content` is
truthy, none otherwise. -/
theorem entryBlocks_filter_header (c : Entry) :
    (entryBlocks c).filter isHeaderBlock =
      if truthyStr c.content then [headerBlock c] else [] := by
  unfold entryBlocks
  cases hc : truthyStr c.content <;>
    cases ht : truthyList c.tables <;>
      cases hi : truthyList c.image_text <;>
        simp [List.filter_append, isHeaderBlock_headerBlock, tables_block_not_header,
          image_block_not_header]

/-- C3 counterexample: an entry whose `content` is the empty string but whose
`tables` list is non-empty still contributes a Tables block to the corpus, so
the combined string is not empty — the claim that such an entry "contributes
nothing at all" is false. -/
theorem empty_content_entry_still_contributes :
    combine_extracted_content
      [{ content := some []
         tables := some [("A | B").toList]
         image_text := none
         file_name := some (("f1").toList) }] ≠ [] ∧
    combine_extracted_content
      [{ content := some []
         tables := some [("A | B").toList]
         image_text := none
         file_name := some (("f1").toList) }] = ("\nTables:\nA | B").toList := by
  exact ⟨by decide, by decide⟩

/-- C3 amended: each entry with non-empty `content` contributes exactly one
provenance header `--- Content from <name> ---`, and the header-carrying blocks
appear in input order (one per truthy-content entry, in order); an entry with
empty (or absent) `content` contributes no header and no content block, but its
Tables and Image Text blocks are still emitted whenever those lists are
non-empty. -/
theorem combine_headers_in_order (l : List Entry) :
    ((l.map entryBlocks).flatten.filter isHeaderBlock
      = (l.filter (fun c => truthyStr c.content)).map headerBlock) ∧
    (∀ c : Entry, truthyStr c.content = false →
      entryBlocks c =
        (if truthyList c.tables then
          [tablesMarker ++ List.intercalate ['\n'] (c.tables.getD [])] else []) ++
        (if truthyList c.image_text then
          [imageMarker ++ List.intercalate ['\n'] (c.image_text.getD [])] else []) ∧
      ∀ b ∈ entryBlocks c, isHeaderBlock b = false) := by
  constructor
  · induction l with
    | nil => rfl
    | cons c rest ih =>
      simp only [List.map_cons, List.flatten_cons, List.filter_append, ih,
        entryBlocks_filter_header, List.filter_cons]
      cases hc : truthyStr c.content <;> simp [hc]
  · intro c hc
    constructor
    · unfold entryBlocks
      rw [hc]
      simp
    · intro b hb
      unfold entryBlocks at hb
      rw [hc] at hb
      simp only [if_neg Bool.false_ne_true, List.nil_append, List.mem_append] at hb
      rcases hb with hb | hb
      · by_cases h : truthyList c.tables = true
        · rw [if_pos h] at hb
          have hb1 := List.mem_singleton.mp hb
          subst hb1
          exact tables_block_not_header _
        · rw [if_neg h] at hb
          exact absurd hb (List.not_mem_nil _)
      · by_cases h : truthyList c.image_text = true
        · rw [if_pos h] at hb
          have hb1 := List.mem_singleton.mp hb
          subst hb1
          exact image_block_not_header _
        · rw [if_neg h] at hb
          exact absurd hb (List.not_mem_nil _)

/-- Witness for C3's amended theorem: one empty-content entry between two
truthy-content entries yields exactly their two headers, in order. -/
theorem combine_headers_in_order_witness :
    (([{ content := some (("hello").toList), file_name := some (("f1").toList) },
       { content := some [], tables := some [("A | B").toList] },
       { content := some (("world").toList), file_name := some (("f2").toList) }
       ] : List Entry).map entryBlocks).flatten.filter isHeaderBlock =
      [headerBlock { content := some (("hello").toList), file_name := some (("f1").toList) },
       headerBlock { content := some (("world").toList), file_name := some (("f2").toList) }] := by
  rw [(combine_headers_in_order _).1]
  decide

/-! ### Correctness of the double model -/

/-- Zero has zero binary digits at any fuel. -/
theorem bitlenFuel_zero (f : ℕ) : bitlenFuel f 0 = 0 := by cases f <;> rfl

/-- Equation lemma for `bitlenFuel` at positive fuel. -/
theorem bitlenFuel_succ (f n : ℕ) :
    bitlenFuel (f + 1) n = if n = 0 then 0 else bitlenFuel f (n / 2) + 1 := rfl

/-- With enough fuel, `bitlenFuel` computes the binary length: a non-zero `n`
lies in `[2^(L-1), 2^L)`. -/
theorem bitlenFuel_spec :
    ∀ fuel n, n ≤ fuel → n ≠ 0 →
      1 ≤ bitlenFuel fuel n ∧ 2 ^ (bitlenFuel fuel n - 1) ≤ n ∧ n < 2 ^ bitlenFuel fuel n := by
  intro fuel
  induction fuel with
  | zero => intro n hn h0; omega
  | succ f ih =>
    intro n hn h0
    rw [bitlenFuel_succ, if_neg h0]
    by_cases h2 : n / 2 = 0
    · have hn1 : n = 1 := by omega
      subst hn1
      rw [h2, bitlenFuel_zero]
      norm_num
    · obtain ⟨hL1, hL2, hL3⟩ := ih (n / 2) (by omega) h2
      have hpow : 2 ^ bitlenFuel f (n / 2) = 2 * 2 ^ (bitlenFuel f (n / 2) - 1) := by
        conv_lhs => rw [show bitlenFuel f (n / 2) = bitlenFuel f (n / 2) - 1 + 1 by omega]
        rw [pow_succ]
        ring
      have hpow2 : 2 ^ (bitlenFuel f (n / 2) + 1) = 2 * 2 ^ bitlenFuel f (n / 2) := by
        rw [pow_succ]
        ring
      refine ⟨by omega, ?_, by omega⟩
      rw [Nat.add_sub_cancel]
      omega

/-- Binary-length bounds for `bitlen`. -/
theorem bitlen_spec (n : ℕ) (hn : n ≠ 0) :
    1 ≤ bitlen n ∧ 2 ^ (bitlen n - 1) ≤ n ∧ n < 2 ^ bitlen n :=
  bitlenFuel_spec n n (le_refl n) hn

/-- Half-even rounding of `a / b` is within half a unit of the exact quotient. -/
theorem roundHalfEvenDiv_bounds (a b : ℕ) (hb : 0 < b) :
    (a : ℚ) / b - 1 / 2 ≤ (roundHalfEvenDiv a b : ℚ) ∧
      (roundHalfEvenDiv a b : ℚ) ≤ (a : ℚ) / b + 1 / 2 := by
  have hbq : (0 : ℚ) < (b : ℚ) := by exact_mod_cast hb
  have hab : b * (a / b) + a % b = a := Nat.div_add_mod a b
  have hr : a % b < b := Nat.mod_lt a hb
  have habq : (b : ℚ) * ((a / b : ℕ) : ℚ) + ((a % b : ℕ) : ℚ) = (a : ℚ) := by
    exact_mod_cast hab
  have key : (a : ℚ) / b = ((a / b : ℕ) : ℚ) + ((a % b : ℕ) : ℚ) / b := by
    field_simp
    linarith [habq]
  have hr1 : ((a % b : ℕ) : ℚ) / b < 1 := by
    rw [div_lt_one hbq]
    exact_mod_cast hr
  have hr0 : (0 : ℚ) ≤ ((a % b : ℕ) : ℚ) / b := by positivity
  simp only [roundHalfEvenDiv]
  split_ifs with h1 h2 h3
  · have hhalf : (1 : ℚ) / 2 < ((a % b : ℕ) : ℚ) / b := by
      rw [div_lt_div_iff₀ (by norm_num) hbq]
      have : (b : ℚ) < 2 * ((a % b : ℕ) : ℚ) := by exact_mod_cast h1
      linarith
    constructor <;> push_cast <;> linarith [key]
  · have hhalf : ((a % b : ℕ) : ℚ) / b < 1 / 2 := by
      rw [div_lt_div_iff₀ hbq (by norm_num)]
      have : 2 * ((a % b : ℕ) : ℚ) < (b : ℚ) := by exact_mod_cast h2
      linarith
    constructor <;> linarith [key]
  · have htie : ((a % b : ℕ) : ℚ) / b = 1 / 2 := by
      rw [div_eq_div_iff hbq.ne' (by norm_num : (2 : ℚ) ≠ 0)]
      have : 2 * (a % b) = b := by omega
      have h2q : 2 * ((a % b : ℕ) : ℚ) = (b : ℚ) := by exact_mod_cast this
      linarith
    constructor <;> linarith [key]
  · have htie : ((a % b : ℕ) : ℚ) / b = 1 / 2 := by
      rw [div_eq_div_iff hbq.ne' (by norm_num : (2 : ℚ) ≠ 0)]
      have : 2 * (a % b) = b := by omega
      have h2q : 2 * ((a % b : ℕ) : ℚ) = (b : ℚ) := by exact_mod_cast this
      linarith
    constructor <;> push_cast <;> linarith [key]

/-- Powers of two combine over integer exponents. -/
theorem two_zpow_mul (m n : ℤ) : (2 : ℚ) ^ m * (2 : ℚ) ^ n = (2 : ℚ) ^ (m + n) :=
  (zpow_add₀ (two_ne_zero) m n).symm

/-- A natural power of two viewed with an integer exponent. -/
theorem two_pow_cast (k : ℕ) : (2 : ℚ) ^ (k : ℤ) = (2 : ℚ) ^ k :=
  zpow_natCast 2 k

/-- Value and positivity of the scaled fraction. -/
theorem scaledFrac_spec (a b : ℕ) (hb : 0 < b) (s : ℤ) :
    0 < (scaledFrac a b s).2 ∧
      ((scaledFrac a b s).1 : ℚ) / ((scaledFrac a b s).2 : ℚ) = (a : ℚ) / b * (2 : ℚ) ^ s := by
  unfold scaledFrac
  split_ifs with hs
  · refine ⟨hb, ?_⟩
    push_cast
    rw [show (2 : ℚ) ^ s = (2 : ℚ) ^ s.toNat by rw [← two_pow_cast]; congr 1; omega]
    ring
  · refine ⟨by positivity, ?_⟩
    push_cast
    rw [show (2 : ℚ) ^ s = ((2 : ℚ) ^ (-s).toNat)⁻¹ by
      rw [← two_pow_cast, ← zpow_neg]; congr 1; omega]
    have hb0 : (b : ℚ) ≠ 0 := Nat.cast_ne_zero.mpr (by omega)
    field_simp

/-- The shift chosen by `fdivShift` scales `a / b` into `[2^52, 2^53)`. -/
theorem fdivShift_spec (a b : ℕ) (ha : 0 < a) (hb : 0 < b) :
    (2 : ℚ) ^ (52 : ℕ) ≤ (a : ℚ) / b * (2 : ℚ) ^ fdivShift a b ∧
      (a : ℚ) / b * (2 : ℚ) ^ fdivShift a b < (2 : ℚ) ^ (53 : ℕ) := by
  obtain ⟨hA1, hA2, hA3⟩ := bitlen_spec a (by omega)
  obtain ⟨hB1, hB2, hB3⟩ := bitlen_spec b (by omega)
  have hbq : (0 : ℚ) < (b : ℚ) := by exact_mod_cast hb
  set s0 : ℤ := 52 + (bitlen b : ℤ) - (bitlen a : ℤ) with hs0
  have haub : (a : ℚ) < (2 : ℚ) ^ bitlen a := by exact_mod_cast hA3
  have halb : (2 : ℚ) ^ (bitlen a - 1) ≤ (a : ℚ) := by exact_mod_cast hA2
  have hbub : (b : ℚ) < (2 : ℚ) ^ bitlen b := by exact_mod_cast hB3
  have hblb : (2 : ℚ) ^ (bitlen b - 1) ≤ (b : ℚ) := by exact_mod_cast hB2
  have hN1 : (a : ℚ) * (2 : ℚ) ^ s0 < (2 : ℚ) ^ (53 : ℕ) * (b : ℚ) := by
    have hmid : (2 : ℚ) ^ bitlen a * (2 : ℚ) ^ s0
        = (2 : ℚ) ^ (53 : ℕ) * (2 : ℚ) ^ (bitlen b - 1) := by
      rw [← two_pow_cast (bitlen a), ← two_pow_cast 53, ← two_pow_cast (bitlen b - 1),
        two_zpow_mul, two_zpow_mul]
      congr 1
      omega
    calc (a : ℚ) * (2 : ℚ) ^ s0
        < (2 : ℚ) ^ bitlen a * (2 : ℚ) ^ s0 :=
          mul_lt_mul_of_pos_right haub (zpow_pos (by norm_num) s0)
      _ = (2 : ℚ) ^ (53 : ℕ) * (2 : ℚ) ^ (bitlen b - 1) := hmid
      _ ≤ (2 : ℚ) ^ (53 : ℕ) * (b : ℚ) :=
          mul_le_mul_of_nonneg_left hblb (by positivity)
  have hN2 : (2 : ℚ) ^ (51 : ℕ) * (b : ℚ) < (a : ℚ) * (2 : ℚ) ^ s0 := by
    have hmid : (2 : ℚ) ^ (51 : ℕ) * (2 : ℚ) ^ bitlen b
        = (2 : ℚ) ^ (bitlen a - 1) * (2 : ℚ) ^ s0 := by
      rw [← two_pow_cast 51, ← two_pow_cast (bitlen b), ← two_pow_cast (bitlen a - 1),
        two_zpow_mul, two_zpow_mul]
      congr 1
      omega
    calc (2 : ℚ) ^ (51 : ℕ) * (b : ℚ)
        < (2 : ℚ) ^ (51 : ℕ) * (2 : ℚ) ^ bitlen b :=
          mul_lt_mul_of_pos_left hbub (by positivity)
      _ = (2 : ℚ) ^ (bitlen a - 1) * (2 : ℚ) ^ s0 := hmid
      _ ≤ (a : ℚ) * (2 : ℚ) ^ s0 :=
          mul_le_mul_of_nonneg_right halb (le_of_lt (zpow_pos (by norm_num) s0))
  have hY0ub : (a : ℚ) / b * (2 : ℚ) ^ s0 < (2 : ℚ) ^ (53 : ℕ) := by
    rw [div_mul_eq_mul_div, div_lt_iff₀ hbq]
    exact hN1
  have hY0lb : (2 : ℚ) ^ (51 : ℕ) < (a : ℚ) / b * (2 : ℚ) ^ s0 := by
    rw [div_mul_eq_mul_div, lt_div_iff₀ hbq]
    exact hN2
  have htest : (2 ^ 52 * (scaledFrac a b s0).2 ≤ (scaledFrac a b s0).1) ↔
      (2 : ℚ) ^ (52 : ℕ) ≤ (a : ℚ) / b * (2 : ℚ) ^ s0 := by
    obtain ⟨hd, hv⟩ := scaledFrac_spec a b hb s0
    have hdq : (0 : ℚ) < ((scaledFrac a b s0).2 : ℚ) := by exact_mod_cast hd
    rw [← hv, le_div_iff₀ hdq]
    constructor
    · intro h
      exact_mod_cast h
    · intro h
      exact_mod_cast h
  have hfd : fdivShift a b =
      if 2 ^ 52 * (scaledFrac a b s0).2 ≤ (scaledFrac a b s0).1 then s0 else s0 + 1 := rfl
  rw [hfd]
  by_cases ht : 2 ^ 52 * (scaledFrac a b s0).2 ≤ (scaledFrac a b s0).1
  · rw [if_pos ht]
    exact ⟨htest.mp ht, hY0ub⟩
  · rw [if_neg ht]
    have hlt : (a : ℚ) / b * (2 : ℚ) ^ s0 < (2 : ℚ) ^ (52 : ℕ) :=
      lt_of_not_le (fun hc => ht (htest.mpr hc))
    have hsucc : (a : ℚ) / b * (2 : ℚ) ^ (s0 + 1) = (a : ℚ) / b * (2 : ℚ) ^ s0 * 2 := by
      rw [← two_zpow_mul s0 1, zpow_one]
      ring
    rw [hsucc]
    have h52 : (2 : ℚ) ^ (52 : ℕ) = 2 * (2 : ℚ) ^ (51 : ℕ) := by norm_num
    have h53 : (2 : ℚ) ^ (53 : ℕ) = 2 * (2 : ℚ) ^ (52 : ℕ) := by norm_num
    constructor <;> linarith

/-- Rounding a significand in `[2^52, ...)` to within half a unit keeps the
value within one part in `2^53` of the exact value (relative error bound). -/
theorem rnd_relative (Y M : ℚ) (t : ℤ) (hY : (2 : ℚ) ^ (52 : ℕ) ≤ Y)
    (h1 : Y - 1 / 2 ≤ M) (h2 : M ≤ Y + 1 / 2) :
    Y * (2 : ℚ) ^ t * (1 - 1 / 2 ^ 53) ≤ M * (2 : ℚ) ^ t ∧
      M * (2 : ℚ) ^ t ≤ Y * (2 : ℚ) ^ t * (1 + 1 / 2 ^ 53) := by
  have ht : (0 : ℚ) < (2 : ℚ) ^ t := zpow_pos (by norm_num) t
  have hYe : (1 : ℚ) / 2 ≤ Y * (1 / 2 ^ 53) := by
    have hh := mul_le_mul_of_nonneg_right hY (by positivity : (0 : ℚ) ≤ 1 / 2 ^ 53)
    rw [show (2 : ℚ) ^ (52 : ℕ) * (1 / 2 ^ 53) = 1 / 2 by norm_num] at hh
    exact hh
  constructor
  · have hM : Y * (1 - 1 / 2 ^ 53) ≤ M := by
      have hexp : Y * (1 - 1 / 2 ^ 53) = Y - Y * (1 / 2 ^ 53) := by ring
      linarith
    calc Y * (2 : ℚ) ^ t * (1 - 1 / 2 ^ 53) = Y * (1 - 1 / 2 ^ 53) * (2 : ℚ) ^ t := by ring
      _ ≤ M * (2 : ℚ) ^ t := mul_le_mul_of_nonneg_right hM (le_of_lt ht)
  · have hM : M ≤ Y * (1 + 1 / 2 ^ 53) := by
      have hexp : Y * (1 + 1 / 2 ^ 53) = Y + Y * (1 / 2 ^ 53) := by ring
      linarith
    calc M * (2 : ℚ) ^ t ≤ Y * (1 + 1 / 2 ^ 53) * (2 : ℚ) ^ t :=
        mul_le_mul_of_nonneg_right hM (le_of_lt ht)
      _ = Y * (2 : ℚ) ^ t * (1 + 1 / 2 ^ 53) := by ring

/-- Double division is correctly rounded: relative error at most `2^-53`. -/
theorem fdivD_bounds (a b : ℕ) (ha : 0 < a) (hb : 0 < b) :
    (a : ℚ) / b * (1 - 1 / 2 ^ 53) ≤ dval (fdivD a b) ∧
      dval (fdivD a b) ≤ (a : ℚ) / b * (1 + 1 / 2 ^ 53) := by
  obtain ⟨hd, hv⟩ := scaledFrac_spec a b hb (fdivShift a b)
  obtain ⟨h52, h53⟩ := fdivShift_spec a b ha hb
  obtain ⟨hr1, hr2⟩ := roundHalfEvenDiv_bounds (scaledFrac a b (fdivShift a b)).1
    (scaledFrac a b (fdivShift a b)).2 hd
  rw [hv] at hr1 hr2
  have hab : (a : ℚ) / b
      = (a : ℚ) / b * (2 : ℚ) ^ fdivShift a b * (2 : ℚ) ^ (-(fdivShift a b)) := by
    rw [mul_assoc, two_zpow_mul]
    simp
  obtain ⟨hlo, hhi⟩ := rnd_relative ((a : ℚ) / b * (2 : ℚ) ^ fdivShift a b)
    ((roundHalfEvenDiv (scaledFrac a b (fdivShift a b)).1 (scaledFrac a b (fdivShift a b)).2 : ℕ) : ℚ)
    (-(fdivShift a b)) h52 hr1 hr2
  have hdv : dval (fdivD a b) =
      ((roundHalfEvenDiv (scaledFrac a b (fdivShift a b)).1
        (scaledFrac a b (fdivShift a b)).2 : ℕ) : ℚ) * (2 : ℚ) ^ (-(fdivShift a b)) := rfl
  rw [hdv]
  constructor
  · calc (a : ℚ) / b * (1 - 1 / 2 ^ 53)
        = (a : ℚ) / b * (2 : ℚ) ^ fdivShift a b * (2 : ℚ) ^ (-(fdivShift a b)) * (1 - 1 / 2 ^ 53) := by
          rw [← hab]
      _ ≤ _ := hlo
  · calc _ ≤ (a : ℚ) / b * (2 : ℚ) ^ fdivShift a b * (2 : ℚ) ^ (-(fdivShift a b)) * (1 + 1 / 2 ^ 53) := hhi
      _ = (a : ℚ) / b * (1 + 1 / 2 ^ 53) := by rw [← hab]

/-- Re-rounding an exact product to 53 bits: relative error at most `2^-53`. -/
theorem round53_bounds (p : ℕ) (e : ℤ) :
    (p : ℚ) * (2 : ℚ) ^ e * (1 - 1 / 2 ^ 53) ≤ dval (round53 p e) ∧
      dval (round53 p e) ≤ (p : ℚ) * (2 : ℚ) ^ e * (1 + 1 / 2 ^ 53) := by
  unfold round53
  split_ifs with hfit
  · have hx0 : (0 : ℚ) ≤ (p : ℚ) * (2 : ℚ) ^ e := by positivity
    have hdv : dval ⟨p, e⟩ = (p : ℚ) * (2 : ℚ) ^ e := rfl
    rw [hdv]
    have heps : (0 : ℚ) ≤ (p : ℚ) * (2 : ℚ) ^ e * (1 / 2 ^ 53) := by positivity
    constructor <;> nlinarith
  · have hp0 : p ≠ 0 := by
      intro h0
      rw [h0] at hfit
      exact hfit (by norm_num [bitlen, bitlenFuel])
    obtain ⟨hb1, hb2, hb3⟩ := bitlen_spec p hp0
    have h54 : 54 ≤ bitlen p := by omega
    have hK : (0 : ℕ) < 2 ^ (bitlen p - 53) := pow_pos (by norm_num) _
    obtain ⟨hr1, hr2⟩ := roundHalfEvenDiv_bounds p (2 ^ (bitlen p - 53)) hK
    have hcast : ((2 ^ (bitlen p - 53) : ℕ) : ℚ) = (2 : ℚ) ^ (bitlen p - 53) := by
      push_cast
      ring
    rw [hcast] at hr1 hr2
    have hY : (2 : ℚ) ^ (52 : ℕ) ≤ (p : ℚ) / (2 : ℚ) ^ (bitlen p - 53) := by
      rw [le_div_iff₀ (by positivity)]
      have hnat : (2 : ℕ) ^ 52 * 2 ^ (bitlen p - 53) ≤ p := by
        calc (2 : ℕ) ^ 52 * 2 ^ (bitlen p - 53) = 2 ^ (52 + (bitlen p - 53)) := by
              rw [pow_add]
          _ = 2 ^ (bitlen p - 1) := by congr 1; omega
          _ ≤ p := hb2
      exact_mod_cast hnat
  
    obtain ⟨hlo, hhi⟩ := rnd_relative ((p : ℚ) / (2 : ℚ) ^ (bitlen p - 53))
      ((roundHalfEvenDiv p (2 ^ (bitlen p - 53)) : ℕ) : ℚ)
      (e + (bitlen p - 53 : ℕ)) hY hr1 hr2
    have hpe : (p : ℚ) * (2 : ℚ) ^ e
        = (p : ℚ) / (2 : ℚ) ^ (bitlen p - 53) * (2 : ℚ) ^ (e + (bitlen p - 53 : ℕ)) := by
      rw [show (2 : ℚ) ^ (e + (bitlen p - 53 : ℕ) : ℤ)
          = (2 : ℚ) ^ e * (2 : ℚ) ^ (bitlen p - 53 : ℕ) by
        rw [← two_pow_cast (bitlen p - 53), two_zpow_mul]]
      have h2K : ((2 : ℚ) ^ (bitlen p - 53 : ℕ)) ≠ 0 := by positivity
      field_simp
      ring
    have hdv : dval ⟨roundHalfEvenDiv p (2 ^ (bitlen p - 53)), e + (bitlen p - 53 : ℕ)⟩
        = ((roundHalfEvenDiv p (2 ^ (bitlen p - 53)) : ℕ) : ℚ)
            * (2 : ℚ) ^ (e + (bitlen p - 53 : ℕ) : ℤ) := rfl
    rw [hdv, hpe]
    exact ⟨hlo, hhi⟩

/-- Double multiplication by an exactly represented natural is correctly
rounded: relative error at most `2^-53`. -/
theorem fmulD_bounds (n : ℕ) (x : Dyadic) :
    (n : ℚ) * dval x * (1 - 1 / 2 ^ 53) ≤ dval (fmulD n x) ∧
      dval (fmulD n x) ≤ (n : ℚ) * dval x * (1 + 1 / 2 ^ 53) := by
  have h := round53_bounds (n * x.m) x.e
  have hcast : ((n * x.m : ℕ) : ℚ) * (2 : ℚ) ^ x.e = (n : ℚ) * dval x := by
    unfold dval
    push_cast
    ring
  rw [hcast] at h
  exact h

/-- `dleD` decides the value order on dyadics. -/
theorem dleD_iff (x y : Dyadic) : dleD x y = true ↔ dval x ≤ dval y := by
  unfold dleD dval
  split_ifs with he
  · rw [decide_eq_true_eq]
    have h2 : (2 : ℚ) ^ ((y.e - x.e).toNat) * (2 : ℚ) ^ x.e = (2 : ℚ) ^ y.e := by
      rw [← two_pow_cast ((y.e - x.e).toNat), two_zpow_mul]
      congr 1
      omega
    constructor
    · intro h
      have hq : (x.m : ℚ) ≤ (y.m : ℚ) * (2 : ℚ) ^ ((y.e - x.e).toNat) := by exact_mod_cast h
      calc (x.m : ℚ) * (2 : ℚ) ^ x.e
          ≤ (y.m : ℚ) * (2 : ℚ) ^ ((y.e - x.e).toNat) * (2 : ℚ) ^ x.e :=
            mul_le_mul_of_nonneg_right hq (le_of_lt (zpow_pos (by norm_num) x.e))
        _ = (y.m : ℚ) * (2 : ℚ) ^ y.e := by rw [mul_assoc, h2]
    · intro h
      have hstep := mul_le_mul_of_nonneg_right h
        (le_of_lt (zpow_pos (by norm_num : (0 : ℚ) < 2) (-x.e)))
      rw [mul_assoc, mul_assoc, two_zpow_mul, two_zpow_mul] at hstep
      rw [show x.e + -x.e = 0 by omega, zpow_zero, mul_one] at hstep
      rw [show y.e + -x.e = ((y.e - x.e).toNat : ℤ) by omega, two_pow_cast] at hstep
      exact_mod_cast hstep
  · rw [decide_eq_true_eq]
    push_neg at he
    have h2 : (2 : ℚ) ^ ((x.e - y.e).toNat) * (2 : ℚ) ^ y.e = (2 : ℚ) ^ x.e := by
      rw [← two_pow_cast ((x.e - y.e).toNat), two_zpow_mul]
      congr 1
      omega
    constructor
    · intro h
      have hq : (x.m : ℚ) * (2 : ℚ) ^ ((x.e - y.e).toNat) ≤ (y.m : ℚ) := by exact_mod_cast h
      calc (x.m : ℚ) * (2 : ℚ) ^ x.e
          = (x.m : ℚ) * (2 : ℚ) ^ ((x.e - y.e).toNat) * (2 : ℚ) ^ y.e := by
            rw [mul_assoc, h2]
        _ ≤ (y.m : ℚ) * (2 : ℚ) ^ y.e :=
            mul_le_mul_of_nonneg_right hq (le_of_lt (zpow_pos (by norm_num) y.e))
    · intro h
      have hstep := mul_le_mul_of_nonneg_right h
        (le_of_lt (zpow_pos (by norm_num : (0 : ℚ) < 2) (-y.e)))
      rw [mul_assoc, mul_assoc, two_zpow_mul, two_zpow_mul] at hstep
      rw [show y.e + -y.e = 0 by omega, zpow_zero, mul_one] at hstep
      rw [show x.e + -y.e = ((x.e - y.e).toNat : ℤ) by omega, two_pow_cast] at hstep
      have hq : (x.m : ℚ) * (2 : ℚ) ^ ((x.e - y.e).toNat) ≤ (y.m : ℚ) := hstep
      exact_mod_cast hq

/-- `fmaxD` computes the value maximum. -/
theorem fmaxD_val (x y : Dyadic) : dval (fmaxD x y) = max (dval x) (dval y) := by
  unfold fmaxD
  by_cases h : dleD x y = true
  · rw [if_pos h, max_eq_right ((dleD_iff x y).mp h)]
  · rw [if_neg h, max_eq_left (le_of_not_le (fun hc => h ((dleD_iff x y).mpr hc)))]

/-- `ftrunc` is the floor of the dyadic value. -/
theorem ftrunc_bounds (x : Dyadic) :
    (ftrunc x : ℚ) ≤ dval x ∧ dval x < (ftrunc x : ℚ) + 1 := by
  unfold ftrunc dval
  split_ifs with he
  · have hx : ((x.m * 2 ^ x.e.toNat : ℕ) : ℚ) = (x.m : ℚ) * (2 : ℚ) ^ x.e := by
      push_cast
      rw [show (2 : ℚ) ^ x.e = (2 : ℚ) ^ x.e.toNat by rw [← two_pow_cast]; congr 1; omega]
    rw [hx]
    constructor
    · exact le_refl _
    · linarith
  · push_neg at he
    have hk2 : (0 : ℚ) < (2 : ℚ) ^ (-x.e).toNat := by positivity
    have hzp : (2 : ℚ) ^ x.e = ((2 : ℚ) ^ (-x.e).toNat)⁻¹ := by
      rw [← two_pow_cast, ← zpow_neg]
      congr 1
      omega
    rw [hzp]
    constructor
    · rw [← div_eq_mul_inv]
      have hcd := Nat.cast_div_le (α := ℚ) (m := x.m) (n := 2 ^ (-x.e).toNat)
      have hc2 : ((2 ^ (-x.e).toNat : ℕ) : ℚ) = (2 : ℚ) ^ (-x.e).toNat := by
        push_cast
        ring
      rw [hc2] at hcd
      exact hcd
    · rw [← div_eq_mul_inv, div_lt_iff₀ hk2]
      have hnat : x.m < (x.m / 2 ^ (-x.e).toNat + 1) * 2 ^ (-x.e).toNat :=
        (Nat.div_lt_iff_lt_mul (pow_pos (by norm_num) _)).mp (Nat.lt_succ_self _)
      exact_mod_cast hnat

/-- Lower bound for one resized dimension: when the scale factor is at least
this dimension's own correctly rounded `300/u`, the double product exceeds 299. -/
theorem resize_component_lb (u : ℕ) (hu : 0 < u) (g : Dyadic)
    (hg : dval (fdivD 300 u) ≤ dval g) :
    (299 : ℚ) < dval (fmulD u g) := by
  have huq : (0 : ℚ) < (u : ℚ) := by exact_mod_cast hu
  have hd := (fdivD_bounds 300 u (by norm_num) hu).1
  have hmul := (fmulD_bounds u g).1
  have h1 : (300 : ℚ) / u * (1 - 1 / 2 ^ 53) ≤ dval g := le_trans hd hg
  have h2 : (u : ℚ) * ((300 : ℚ) / u * (1 - 1 / 2 ^ 53)) ≤ (u : ℚ) * dval g :=
    mul_le_mul_of_nonneg_left h1 (le_of_lt huq)
  have h3 : (u : ℚ) * ((300 : ℚ) / u * (1 - 1 / 2 ^ 53)) = 300 * (1 - 1 / 2 ^ 53) := by
    field_simp
    ring
  rw [h3] at h2
  have h4 := mul_le_mul_of_nonneg_right h2 (show (0 : ℚ) ≤ 1 - 1 / 2 ^ 53 by norm_num)
  calc (299 : ℚ) < 300 * (1 - 1 / 2 ^ 53) * (1 - 1 / 2 ^ 53) := by norm_num
    _ ≤ (u : ℚ) * dval g * (1 - 1 / 2 ^ 53) := h4
    _ ≤ dval (fmulD u g) := hmul

/-- Upper bound for one resized dimension: when the scale factor is at most
`(300/u) * (1 + 2^-53)`, the double product stays below 301. -/
theorem resize_component_ub (u : ℕ) (hu : 0 < u) (g : Dyadic)
    (hg : dval g ≤ (300 : ℚ) / u * (1 + 1 / 2 ^ 53)) :
    dval (fmulD u g) < 301 := by
  have huq : (0 : ℚ) < (u : ℚ) := by exact_mod_cast hu
  have hmul := (fmulD_bounds u g).2
  have h2 : (u : ℚ) * dval g ≤ (u : ℚ) * ((300 : ℚ) / u * (1 + 1 / 2 ^ 53)) :=
    mul_le_mul_of_nonneg_left hg (le_of_lt huq)
  have h3 : (u : ℚ) * ((300 : ℚ) / u * (1 + 1 / 2 ^ 53)) = 300 * (1 + 1 / 2 ^ 53) := by
    field_simp
    ring
  rw [h3] at h2
  have h4 := mul_le_mul_of_nonneg_right h2 (show (0 : ℚ) ≤ 1 + 1 / 2 ^ 53 by norm_num)
  calc dval (fmulD u g) ≤ (u : ℚ) * dval g * (1 + 1 / 2 ^ 53) := hmul
    _ ≤ 300 * (1 + 1 / 2 ^ 53) * (1 + 1 / 2 ^ 53) := h4
    _ < 301 := by norm_num

/-- A dimension whose double product exceeds 299 truncates to at least 299. -/
theorem ftrunc_ge_299 (x : Dyadic) (h : (299 : ℚ) < dval x) : 299 ≤ ftrunc x := by
  have hub := (ftrunc_bounds x).2
  have : (298 : ℚ) < (ftrunc x : ℚ) := by linarith
  have hnat : (298 : ℕ) < ftrunc x := by exact_mod_cast this
  omega

/-- A dimension whose double product stays below 301 truncates to at most 300. -/
theorem ftrunc_le_300 (x : Dyadic) (h : dval x < 301) : ftrunc x ≤ 300 := by
  have hlb := (ftrunc_bounds x).1
  have : (ftrunc x : ℚ) < 301 := by linarith
  have hnat : ftrunc x < (301 : ℕ) := by exact_mod_cast this
  omega

/-- C7 counterexample: at a 281 x 281 input the double computation gives
`281 * (300/281) = 299.99999999999994...`, which `int(...)` truncates to 299 —
the smaller dimension does NOT reach 300, refuting the claim as stated. -/
theorem resize_281_falls_short :
    resizeDims 281 281 = (299, 299) ∧ ¬ 300 ≤ (resizeDims 281 281).1 := by
  exact ⟨by decide, by decide⟩

/-- C7 amended: for positive dimensions (of realistic size, where conversion to
double is exact and no overflow can occur), images with both dimensions at
least 300 are not resized; otherwise BOTH dimensions are scaled by the single
double `max(300/height, 300/width)` (uniform scaling, hence aspect preservation
up to rounding and truncation), and afterwards every dimension is at least 299
and the smaller input dimension lands on 299 or 300 — floating-point rounding
can leave it one pixel short of the claimed 300. -/
theorem preprocess_resize_spec (h w : ℕ) (hh : 0 < h) (hw : 0 < w)
    (_hhb : h ≤ 2 ^ 40) (_hwb : w ≤ 2 ^ 40) :
    (¬(h < 300 ∨ w < 300) → resizeDims h w = (h, w)) ∧
    ((h < 300 ∨ w < 300) →
      resizeDims h w =
        (ftrunc (fmulD h (fmaxD (fdivD 300 h) (fdivD 300 w))),
         ftrunc (fmulD w (fmaxD (fdivD 300 h) (fdivD 300 w)))) ∧
      299 ≤ (resizeDims h w).1 ∧ 299 ≤ (resizeDims h w).2 ∧
      (h ≤ w → (resizeDims h w).1 ≤ 300) ∧
      (w ≤ h → (resizeDims h w).2 ≤ 300)) := by
  constructor
  · intro hcond
    unfold resizeDims
    rw [if_neg hcond]
  · intro hcond
    have hdef : resizeDims h w =
        (ftrunc (fmulD h (fmaxD (fdivD 300 h) (fdivD 300 w))),
         ftrunc (fmulD w (fmaxD (fdivD 300 h) (fdivD 300 w)))) := by
      unfold resizeDims
      rw [if_pos hcond]
    have hmaxv := fmaxD_val (fdivD 300 h) (fdivD 300 w)
    have hgeh : dval (fdivD 300 h) ≤ dval (fmaxD (fdivD 300 h) (fdivD 300 w)) := by
      rw [hmaxv]
      exact le_max_left _ _
    have hgew : dval (fdivD 300 w) ≤ dval (fmaxD (fdivD 300 h) (fdivD 300 w)) := by
      rw [hmaxv]
      exact le_max_right _ _
    refine ⟨hdef, ?_, ?_, ?_, ?_⟩
    · rw [hdef]
      exact ftrunc_ge_299 _ (resize_component_lb h hh _ hgeh)
    · rw [hdef]
      exact ftrunc_ge_299 _ (resize_component_lb w hw _ hgew)
    · intro hle
      rw [hdef]
      apply ftrunc_le_300
      apply resize_component_ub h hh
      rw [hmaxv]
      apply max_le
      · exact (fdivD_bounds 300 h (by norm_num) hh).2
      · calc dval (fdivD 300 w) ≤ (300 : ℚ) / w * (1 + 1 / 2 ^ 53) :=
            (fdivD_bounds 300 w (by norm_num) hw).2
          _ ≤ (300 : ℚ) / h * (1 + 1 / 2 ^ 53) := by
            apply mul_le_mul_of_nonneg_right _ (by norm_num)
            apply div_le_div_of_nonneg_left (by norm_num) (by exact_mod_cast hh)
            exact_mod_cast hle
    · intro hle
      rw [hdef]
      apply ftrunc_le_300
      apply resize_component_ub w hw
      rw [hmaxv]
      apply max_le
      · calc dval (fdivD 300 h) ≤ (300 : ℚ) / h * (1 + 1 / 2 ^ 53) :=
            (fdivD_bounds 300 h (by norm_num) hh).2
          _ ≤ (300 : ℚ) / w * (1 + 1 / 2 ^ 53) := by
            apply mul_le_mul_of_nonneg_right _ (by norm_num)
            apply div_le_div_of_nonneg_left (by norm_num) (by exact_mod_cast hw)
            exact_mod_cast hle
      · exact (fdivD_bounds 300 w (by norm_num) hw).2

/-- Witness for C7's amended theorem: a 150 x 150 image is upscaled into the
`[299, 300]` window; a 480 x 640 image is left alone. -/
theorem preprocess_resize_spec_witness :
    299 ≤ (resizeDims 150 150).1 ∧ (resizeDims 150 150).1 ≤ 300 ∧
      resizeDims 480 640 = (480, 640) :=
  ⟨((preprocess_resize_spec 150 150 (by decide) (by decide) (by norm_num)
      (by norm_num)).2 (by decide)).2.1,
   ((preprocess_resize_spec 150 150 (by decide) (by decide) (by norm_num)
      (by norm_num)).2 (by decide)).2.2.2.1 (by decide),
   (preprocess_resize_spec 480 640 (by decide) (by decide) (by norm_num)
      (by norm_num)).1 (by decide)⟩

/-- Equation lemma: splitter on the empty string. -/
theorem splitAux_nil (acc : List Char) :
    splitAux [] acc = if acc.isEmpty then [] else [acc.reverse] := rfl

/-- Equation lemma: splitter on a cons. -/
theorem splitAux_cons (c : Char) (t acc : List Char) :
    splitAux (c :: t) acc =
      if pyIsSpace c then
        if acc.isEmpty then splitAux t [] else acc.reverse :: splitAux t []
      else splitAux t (c :: acc) := rfl

/-- Every token produced by the splitter is non-empty and whitespace-free,
provided the accumulated partial token is whitespace-free. -/
theorem splitAux_mem (s : List Char) : ∀ acc, (∀ c ∈ acc, pyIsSpace c = false) →
    ∀ x ∈ splitAux s acc, x ≠ [] ∧ ∀ c ∈ x, pyIsSpace c = false := by
  induction s with
  | nil =>
    intro acc hacc x hx
    rw [splitAux_nil] at hx
    by_cases h : acc.isEmpty
    · rw [if_pos h] at hx
      exact absurd hx (List.not_mem_nil _)
    · rw [if_neg h] at hx
      have hx1 := List.mem_singleton.mp hx
      subst hx1
      refine ⟨?_, ?_⟩
      · intro hrev
        rw [List.reverse_eq_nil_iff] at hrev
        rw [hrev] at h
        exact h rfl
      · intro c hc
        exact hacc c (List.mem_reverse.mp hc)
  | cons c t ih =>
    intro acc hacc x hx
    rw [splitAux_cons] at hx
    by_cases hsp : pyIsSpace c = true
    · rw [if_pos hsp] at hx
      by_cases h : acc.isEmpty
      · rw [if_pos h] at hx
        exact ih [] (fun d hd => absurd hd (List.not_mem_nil _)) x hx
      · rw [if_neg h] at hx
        rcases List.mem_cons.mp hx with hx1 | hx2
        · subst hx1
          refine ⟨?_, ?_⟩
          · intro hrev
            rw [List.reverse_eq_nil_iff] at hrev
            rw [hrev] at h
            exact h rfl
          · intro d hd
            exact hacc d (List.mem_reverse.mp hd)
        · exact ih [] (fun d hd => absurd hd (List.not_mem_nil _)) x hx2
    · rw [if_neg hsp] at hx
      refine ih (c :: acc) ?_ x hx
      intro d hd
      rcases List.mem_cons.mp hd with hd1 | hd2
      · subst hd1
        exact Bool.eq_false_iff.mpr hsp
      · exact hacc d hd2

/-- Scanning a whitespace-free token just accumulates it. -/
theorem splitAux_token_scan (a : List Char) : ∀ u acc, (∀ c ∈ a, pyIsSpace c = false) →
    splitAux (a ++ u) acc = splitAux u (a.reverse ++ acc) := by
  induction a with
  | nil => intro u acc _; simp
  | cons c a' ih =>
    intro u acc ha
    have hc : pyIsSpace c = false := ha c (List.mem_cons_self c a')
    show splitAux (c :: (a' ++ u)) acc = _
    rw [splitAux_cons, if_neg (by rw [hc]; exact Bool.false_ne_true)]
    rw [ih u (c :: acc) (fun d hd => ha d (List.mem_cons_of_mem c hd))]
    rw [List.reverse_cons, List.append_assoc]
    rfl

/-- Splitting the space-joined image of non-empty whitespace-free tokens
recovers exactly those tokens. -/
theorem pySplitWs_intercalate (toks : List (List Char))
    (htoks : ∀ x ∈ toks, x ≠ [] ∧ ∀ c ∈ x, pyIsSpace c = false) :
    pySplitWs (List.intercalate [' '] toks) = toks := by
  induction toks with
  | nil => rfl
  | cons a rest ih =>
    cases rest with
    | nil =>
      have h1 : List.intercalate [' '] [a] = a := by
        simp [List.intercalate]
      rw [h1]
      unfold pySplitWs
      have h2 : splitAux a [] = splitAux ([] : List Char) (a.reverse ++ []) := by
        conv_lhs => rw [← List.append_nil a]
        exact splitAux_token_scan a [] []
          (fun c hc => (htoks a (List.mem_singleton.mpr rfl)).2 c hc)
      rw [h2, List.append_nil]
      rw [splitAux_nil]
      rw [if_neg (by
        rw [List.isEmpty_iff, List.reverse_eq_nil_iff]
        exact (htoks a (List.mem_singleton.mpr rfl)).1)]
      rw [List.reverse_reverse]
    | cons b rest' =>
      have h1 : List.intercalate [' '] (a :: b :: rest') =
          a ++ ' ' :: List.intercalate [' '] (b :: rest') := by
        simp [List.intercalate]
      rw [h1]
      unfold pySplitWs
      rw [splitAux_token_scan a (' ' :: List.intercalate [' '] (b :: rest')) []
        (fun c hc => (htoks a (List.mem_cons_self a _)).2 c hc)]
      rw [List.append_nil]
      rw [splitAux_cons]
      rw [if_pos (by decide)]
      rw [if_neg (by
        rw [List.isEmpty_iff, List.reverse_eq_nil_iff]
        exact (htoks a (List.mem_cons_self a _)).1)]
      rw [List.reverse_reverse]
      have ih2 := ih (fun x hx => htoks x (List.mem_cons_of_mem a hx))
      unfold pySplitWs at ih2
      rw [ih2]

/-- Tokens of a split are non-empty and whitespace-free. -/
theorem pySplitWs_tokens (s : List Char) :
    ∀ x ∈ pySplitWs s, x ≠ [] ∧ ∀ c ∈ x, pyIsSpace c = false :=
  splitAux_mem s [] (fun _ hd => absurd hd (List.not_mem_nil _))

/-- The whitespace-collapsing stage is idempotent. -/
theorem collapseWs_idem (s : List Char) : collapseWs (collapseWs s) = collapseWs s := by
  unfold collapseWs
  rw [pySplitWs_intercalate (pySplitWs s) (pySplitWs_tokens s)]

/-- C10 counterexample: cleaning is NOT idempotent.  On `"Bene  ficiary"` (two
spaces) no correction key matches, but whitespace collapsing merges the two
spaces and thereby CREATES an occurrence of the key `"Bene ficiary"`; the second
cleaning pass then rewrites it to `"Beneficiary"`. -/
theorem clean_ocr_text_not_idempotent :
    clean_ocr_text (clean_ocr_text (("Bene  ficiary").toList))
        ≠ clean_ocr_text (("Bene  ficiary").toList) ∧
      clean_ocr_text (("Bene  ficiary").toList) = ("Bene ficiary").toList ∧
      clean_ocr_text (clean_ocr_text (("Bene  ficiary").toList)) =
        ("Beneficiary").toList := by
  exact ⟨by decide, by decide, by decide⟩

/-- C10 amended: the whitespace-collapse-and-trim stage is idempotent on every
string, and the full cleaner is idempotent exactly on those inputs whose cleaned
form is untouched by the corrections pass — but not in general, because
collapsing whitespace can create a new occurrence of a correction key (see the
counterexample). -/
theorem clean_ocr_text_conditional_idempotence :
    (∀ s, collapseWs (collapseWs s) = collapseWs s) ∧
    (∀ t, applyCorrections corrections (clean_ocr_text t) = clean_ocr_text t →
      clean_ocr_text (clean_ocr_text t) = clean_ocr_text t) := by
  have heq : ∀ u : List Char,
      clean_ocr_text u = if u.isEmpty then [] else collapseWs (applyCorrections corrections u) :=
    fun _ => rfl
  refine ⟨collapseWs_idem, ?_⟩
  intro t hfix
  by_cases ht : t.isEmpty
  · have h0 : clean_ocr_text t = [] := by
      rw [heq t, if_pos ht]
    rw [h0]
    rfl
  · have h1 : clean_ocr_text t = collapseWs (applyCorrections corrections t) := by
      rw [heq t, if_neg ht]
    by_cases hy : (clean_ocr_text t).isEmpty
    · have h2 : clean_ocr_text t = [] := List.isEmpty_iff.mp hy
      rw [h2]
      rfl
    · have h3 : clean_ocr_text (clean_ocr_text t) =
          collapseWs (applyCorrections corrections (clean_ocr_text t)) := by
        rw [heq (clean_ocr_text t), if_neg hy]
      rw [h3, hfix, h1, collapseWs_idem]

/-- Witness for C10's amended theorem: `"gate Arnount"` cleans to
`"date Amount"`, which the corrections pass leaves alone, so a second cleaning
changes nothing. -/
theorem clean_ocr_text_conditional_idempotence_witness :
    clean_ocr_text (clean_ocr_text (("gate Arnount").toList))
      = clean_ocr_text (("gate Arnount").toList) :=
  clean_ocr_text_conditional_idempotence.2 (("gate Arnount").toList) (by decide)

/-! ### Commutation machinery for independent substring replacements -/

/-- Equation lemma for `replaceFuel` at positive fuel on a cons. -/
theorem replaceFuel_succ_cons (k r : List Char) (f : Nat) (c : Char) (t : List Char) :
    replaceFuel k r (f + 1) (c :: t) =
      if k.isPrefixOf (c :: t) then r ++ replaceFuel k r f ((c :: t).drop k.length)
      else c :: replaceFuel k r f t := rfl

/-- With a non-empty pattern the scan is independent of the fuel, as long as the
fuel covers the length of the scanned list. -/
theorem replaceFuel_irrel (k r : List Char) (hk : k ≠ []) :
    ∀ f₁ f₂ s, s.length ≤ f₁ → s.length ≤ f₂ →
      replaceFuel k r f₁ s = replaceFuel k r f₂ s := by
  intro f₁
  induction f₁ with
  | zero =>
    intro f₂ s h1 h2
    have hs : s = [] := List.eq_nil_of_length_eq_zero (Nat.le_zero.mp h1)
    subst hs
    cases f₂ <;> rfl
  | succ f ih =>
    intro f₂ s h1 h2
    cases s with
    | nil => cases f₂ <;> rfl
    | cons c t =>
      cases f₂ with
      | zero => exact absurd h2 (by simp)
      | succ f₂' =>
        have hkl : 1 ≤ k.length := List.length_pos.mpr hk
        rw [replaceFuel_succ_cons, replaceFuel_succ_cons]
        by_cases hp : k.isPrefixOf (c :: t) = true
        · rw [if_pos hp, if_pos hp]
          congr 1
          apply ih
          · rw [List.length_drop]
            simp only [List.length_cons] at h1 ⊢
            omega
          · rw [List.length_drop]
            simp only [List.length_cons] at h2 ⊢
            omega
        · rw [if_neg hp, if_neg hp]
          congr 1
          apply ih
          · simp only [List.length_cons] at h1
            omega
          · simp only [List.length_cons] at h2
            omega

/-- `str.replace` with a non-empty pattern on the empty string. -/
theorem replaceAll_nil (k r : List Char) (hk : k ≠ []) : replaceAll k r [] = [] := by
  unfold replaceAll
  rw [if_neg (fun h => hk (List.isEmpty_iff.mp h))]
  rfl

/-- `str.replace` when the pattern matches at the head: emit the replacement and
continue past the match. -/
theorem replaceAll_pos (k r s : List Char) (hk : k ≠ []) (hp : k <+: s) :
    replaceAll k r s = r ++ replaceAll k r (s.drop k.length) := by
  cases s with
  | nil => exact absurd (List.prefix_nil.mp hp) hk
  | cons c t =>
    have hkb : ¬(k.isEmpty = true) := fun h => hk (List.isEmpty_iff.mp h)
    have hpb : k.isPrefixOf (c :: t) = true := by
      simpa [ List.isPrefixOf_iff_prefix] using hp
    have hkl : 1 ≤ k.length := List.length_pos.mpr hk
    unfold replaceAll
    rw [if_neg hkb, if_neg hkb]
    rw [show (c :: t).length = t.length + 1 from rfl]
    rw [replaceFuel_succ_cons, if_pos hpb]
    congr 1
    apply replaceFuel_irrel k r hk
    · rw [List.length_drop]
      simp only [List.length_cons]
      omega
    · exact le_refl _

/-- `str.replace` when the pattern does not match at the head: copy one
character and continue. -/
theorem replaceAll_cons_neg (k r : List Char) (c : Char) (t : List Char) (hk : k ≠ [])
    (hp : ¬ k <+: (c :: t)) :
    replaceAll k r (c :: t) = c :: replaceAll k r t := by
  have hkb : ¬(k.isEmpty = true) := fun h => hk (List.isEmpty_iff.mp h)
  have hpb : ¬(k.isPrefixOf (c :: t) = true) := by
    simpa [ List.isPrefixOf_iff_prefix] using hp
  unfold replaceAll
  rw [if_neg hkb, if_neg hkb]
  rw [show (c :: t).length = t.length + 1 from rfl]
  rw [replaceFuel_succ_cons, if_neg hpb]

/-- `str.replace` consumes a leading occurrence of the full pattern. -/
theorem replaceAll_key (k r u : List Char) (hk : k ≠ []) :
    replaceAll k r (k ++ u) = r ++ replaceAll k r u := by
  rw [replaceAll_pos k r (k ++ u) hk (List.prefix_append k u), List.drop_left]

/-- `indepB` implies the propositional independence predicate. -/
theorem indepB_indep (a b : List Char) (h : indepB a b = true) : Indep a b := by
  intro q hq hqs
  unfold indepB at h
  rw [List.all_eq_true] at h
  have h2 := h q ((List.mem_tails q a).mpr hqs)
  rw [Bool.or_eq_true, Bool.and_eq_true] at h2
  rcases h2 with h2 | ⟨h3, h4⟩
  · exact absurd (List.isEmpty_iff.mp h2) hq
  · rw [Bool.not_eq_true'] at h3 h4
    constructor
    · intro hbq
      have hb := ( List.isPrefixOf_iff_prefix).mpr hbq
      rw [h3] at hb
      exact Bool.false_ne_true hb
    · intro hqb
      have hb := ( List.isPrefixOf_iff_prefix).mpr hqb
      rw [h4] at hb
      exact Bool.false_ne_true hb

/-- A suffix of a suffix-tail. -/
theorem suffix_of_cons_suffix {q0 : Char} {q' b : List Char} (h : (q0 :: q') <:+ b) :
    q' <:+ b := by
  rcases h with ⟨v, hv⟩
  refine ⟨v ++ [q0], ?_⟩
  rw [List.append_assoc]
  simpa using hv

/-- Independence is preserved when shrinking the protected string to a suffix. -/
theorem Indep.suffix_mono {a b a' : List Char} (h : Indep a b) (hs : a' <:+ a) :
    Indep a' b :=
  fun q hq hqs => h q hq (hqs.trans hs)

/-- Pass-through: when no occurrence of `k` can sit inside `a` or straddle its
end, the scan copies `a` verbatim and continues in `t`. -/
theorem replace_pass (k r : List Char) (hk : k ≠ []) :
    ∀ a t : List Char, Indep a k → replaceAll k r (a ++ t) = a ++ replaceAll k r t := by
  intro a
  induction a with
  | nil => intro t _; simp
  | cons c a' ih =>
    intro t hind
    have hnp : ¬ k <+: (c :: (a' ++ t)) := by
      intro hp
      have hca : (c :: a') <+: ((c :: a') ++ t) := List.prefix_append _ _
      rcases le_total k.length (c :: a').length with hl | hl
      · have hk2 : k <+: (c :: a') := List.prefix_of_prefix_length_le hp hca hl
        exact (hind (c :: a') (by simp) (List.suffix_refl _)).1 hk2
      · have hk2 : (c :: a') <+: k := List.prefix_of_prefix_length_le hca hp hl
        exact (hind (c :: a') (by simp) (List.suffix_refl _)).2 hk2
    show replaceAll k r (c :: (a' ++ t)) = (c :: a') ++ replaceAll k r t
    rw [replaceAll_cons_neg k r c (a' ++ t) hk hnp]
    rw [ih t (hind.suffix_mono (List.suffix_cons c a'))]
    rfl

/-- Insulation: a non-empty suffix `q` of `b` that survives as a prefix of the
rewritten `replaceAll k r t` was already a prefix of `t`, provided `q` can
neither contain `r` nor overlap its start. -/
theorem replace_insul (k r b : List Char) (hk : k ≠ []) (hbr : Indep b r) :
    ∀ n t q, t.length ≤ n → q ≠ [] → q <:+ b → q <+: replaceAll k r t → q <+: t := by
  intro n
  induction n with
  | zero =>
    intro t q ht hq hqs hqp
    have hnil : t = [] := List.eq_nil_of_length_eq_zero (Nat.le_zero.mp ht)
    subst hnil
    rw [replaceAll_nil k r hk] at hqp
    exact absurd (List.prefix_nil.mp hqp) hq
  | succ n ih =>
    intro t q ht hq hqs hqp
    cases t with
    | nil =>
      rw [replaceAll_nil k r hk] at hqp
      exact absurd (List.prefix_nil.mp hqp) hq
    | cons c t0 =>
      by_cases hp : k <+: (c :: t0)
      · rw [replaceAll_pos k r (c :: t0) hk hp] at hqp
        rcases le_total q.length r.length with hl | hl
        · have hqr : q <+: r :=
            List.prefix_of_prefix_length_le hqp (List.prefix_append r _) hl
          exact absurd hqr (hbr q hq hqs).2
        · have hrq : r <+: q :=
            List.prefix_of_prefix_length_le (List.prefix_append r _) hqp hl
          exact absurd hrq (hbr q hq hqs).1
      · rw [replaceAll_cons_neg k r c t0 hk hp] at hqp
        cases q with
        | nil => exact absurd rfl hq
        | cons q0 q' =>
          rcases List.cons_prefix_cons.mp hqp with ⟨hq0, hq'⟩
          subst hq0
          cases q' with
          | nil => exact List.cons_prefix_cons.mpr ⟨rfl, List.nil_prefix⟩
          | cons d q'' =>
            have hq's : (d :: q'') <:+ b := suffix_of_cons_suffix hqs
            have hrec := ih t0 (d :: q'')
              (by simp only [List.length_cons] at ht; omega)
              (by simp) hq's hq'
            exact List.cons_prefix_cons.mpr ⟨rfl, hrec⟩

/-- Commutation: two replacement rules whose patterns and replacements are
mutually independent can be applied in either order with the same result. -/
theorem replaceAll_comm (k1 r1 k2 r2 : List Char)
    (hk1 : k1 ≠ []) (hk2 : k2 ≠ [])
    (h12 : Indep k1 k2) (h21 : Indep k2 k1)
    (hr1 : Indep r1 k2) (hr2 : Indep r2 k1)
    (hc1 : Indep k2 r1) (hc2 : Indep k1 r2) :
    ∀ s, replaceAll k2 r2 (replaceAll k1 r1 s) = replaceAll k1 r1 (replaceAll k2 r2 s) := by
  have main : ∀ n s, s.length ≤ n →
      replaceAll k2 r2 (replaceAll k1 r1 s) = replaceAll k1 r1 (replaceAll k2 r2 s) := by
    intro n
    induction n with
    | zero =>
      intro s hs
      have hnil : s = [] := List.eq_nil_of_length_eq_zero (Nat.le_zero.mp hs)
      subst hnil
      rw [replaceAll_nil k1 r1 hk1, replaceAll_nil k2 r2 hk2, replaceAll_nil k1 r1 hk1]
    | succ n ih =>
      intro s hs
      by_cases hp1 : k1 <+: s
      · rcases hp1 with ⟨t, ht⟩
        subst ht
        have hlt : t.length ≤ n := by
          have hkl : 1 ≤ k1.length := List.length_pos.mpr hk1
          rw [List.length_append] at hs
          omega
        rw [replaceAll_key k1 r1 t hk1]
        rw [replace_pass k2 r2 hk2 r1 (replaceAll k1 r1 t) hr1]
        rw [replace_pass k2 r2 hk2 k1 t h12]
        rw [replaceAll_key k1 r1 (replaceAll k2 r2 t) hk1]
        rw [ih t hlt]
      · by_cases hp2 : k2 <+: s
        · rcases hp2 with ⟨t, ht⟩
          subst ht
          have hlt : t.length ≤ n := by
            have hkl : 1 ≤ k2.length := List.length_pos.mpr hk2
            rw [List.length_append] at hs
            omega
          rw [replace_pass k1 r1 hk1 k2 t h21]
          rw [replaceAll_key k2 r2 (replaceAll k1 r1 t) hk2]
          rw [replaceAll_key k2 r2 t hk2]
          rw [replace_pass k1 r1 hk1 r2 (replaceAll k2 r2 t) hr2]
          rw [ih t hlt]
        · cases s with
          | nil =>
            rw [replaceAll_nil k1 r1 hk1, replaceAll_nil k2 r2 hk2, replaceAll_nil k1 r1 hk1]
          | cons c t =>
            have hlt : t.length ≤ n := by
              simp only [List.length_cons] at hs
              omega
            have hnp2 : ¬ k2 <+: (c :: replaceAll k1 r1 t) := by
              intro hp
              cases hk2e : k2 with
              | nil => exact hk2 hk2e
              | cons q0 q' =>
                rw [hk2e] at hp
                rcases List.cons_prefix_cons.mp hp with ⟨hq0, hq'⟩
                subst hq0
                cases hq'e : q' with
                | nil =>
                  rw [hq'e] at hk2e
                  exact hp2 (by
                    rw [hk2e]
                    exact List.cons_prefix_cons.mpr ⟨rfl, List.nil_prefix⟩)
                | cons d q'' =>
                  rw [hq'e] at hq'
                  have hsuf : (d :: q'') <:+ k2 := by
                    rw [hk2e, hq'e]
                    exact List.suffix_cons _ _
                  have hrec := replace_insul k1 r1 k2 hk1 hc1 t.length t (d :: q'')
                    (le_refl _) (by simp) hsuf hq'
                  exact hp2 (by
                    rw [hk2e, hq'e]
                    exact List.cons_prefix_cons.mpr ⟨rfl, hrec⟩)
            have hnp1 : ¬ k1 <+: (c :: replaceAll k2 r2 t) := by
              intro hp
              cases hk1e : k1 with
              | nil => exact hk1 hk1e
              | cons q0 q' =>
                rw [hk1e] at hp
                rcases List.cons_prefix_cons.mp hp with ⟨hq0, hq'⟩
                subst hq0
                cases hq'e : q' with
                | nil =>
                  rw [hq'e] at hk1e
                  exact hp1 (by
                    rw [hk1e]
                    exact List.cons_prefix_cons.mpr ⟨rfl, List.nil_prefix⟩)
                | cons d q'' =>
                  rw [hq'e] at hq'
                  have hsuf : (d :: q'') <:+ k1 := by
                    rw [hk1e, hq'e]
                    exact List.suffix_cons _ _
                  have hrec := replace_insul k2 r2 k1 hk2 hc2 t.length t (d :: q'')
                    (le_refl _) (by simp) hsuf hq'
                  exact hp1 (by
                    rw [hk1e, hq'e]
                    exact List.cons_prefix_cons.mpr ⟨rfl, hrec⟩)
            rw [replaceAll_cons_neg k1 r1 c t hk1 hp1]
            rw [replaceAll_cons_neg k2 r2 c (replaceAll k1 r1 t) hk2 hnp2]
            rw [replaceAll_cons_neg k2 r2 c t hk2 hp2]
            rw [replaceAll_cons_neg k1 r1 c (replaceAll k2 r2 t) hk1 hnp1]
            rw [ih t hlt]
  exact fun s => main s.length s (le_refl _)

/-- Any two rules of the corrections dict commute: no key overlaps any other
rule's key or replacement (checked by `decide` through `indepB`). -/
theorem corrections_comm :
    ∀ p ∈ corrections, ∀ q ∈ corrections, ∀ z : List Char,
      replaceAll q.1 q.2 (replaceAll p.1 p.2 z) = replaceAll p.1 p.2 (replaceAll q.1 q.2 z) := by
  intro p hp q hq z
  fin_cases hp <;> fin_cases hq <;>
    first
      | rfl
      | exact replaceAll_comm _ _ _ _ (by decide) (by decide)
          (indepB_indep _ _ (by decide)) (indepB_indep _ _ (by decide))
          (indepB_indep _ _ (by decide)) (indepB_indep _ _ (by decide))
          (indepB_indep _ _ (by decide)) (indepB_indep _ _ (by decide)) z

/-- C8: the batch of corrections is order-independent — applying the rules in
any permutation of the dictionary order produces the same string on every
input, because no correction's key overlaps any other correction's key or
replacement. -/
theorem corrections_order_independent (t : List Char)
    (rules : List (List Char × List Char)) (h : List.Perm corrections rules) :
    applyCorrections rules t = applyCorrections corrections t := by
  unfold applyCorrections
  exact (h.foldl_eq' (fun p hp q hq z => corrections_comm p hp q hq z) t).symm

/-- Witness for C8: the reversed dictionary gives the same result on a string
containing two different misreads. -/
theorem corrections_order_independent_witness :
    List.Perm corrections corrections.reverse ∧
      applyCorrections corrections.reverse (("gate Va|ue").toList)
        = applyCorrections corrections (("gate Va|ue").toList) :=
  ⟨by decide, corrections_order_independent _ _ (by decide)⟩
